import Mathlib

/-!
Verification of the AI task scheduler core (`models.py`, `ai_planner.py`,
`executor.py`) against its specification.

The Python source is shallowly embedded: pure computations become Lean
functions, the mutable executor becomes an explicit state machine, and the
external OpenAI classifier (an I/O capability) becomes a parameter recording
its outcome.  Python `dict`s keyed by `range(n)` become functions `Nat → _`
read only below `n`; Python `set`s of indices become `Finset Nat`; Python
strings become Lean `String`s (`str.lower` / substring containment agree on
the ASCII texts involved).  The `thinking` dictionary built by
`generate_plan` is presentation-only trace text (spec §6: "this trace is
informational only and carries no control semantics") and is not modelled,
as are wall-clock timestamps (`created_at` / `generated_at` are opaque).
-/

namespace Scheduler

/-- Enumeration `TaskStatus` from `models.py`. -/
inductive TaskStatus where
  | pending
  | running
  | completed
  | failed
deriving DecidableEq, Repr, Inhabited

/-- Dataclass `Task` from `models.py`.  `created_at : Nat` models the opaque
creation timestamp. -/
structure Task where
  id : String
  name : String
  description : String := ""
  dependencies : List String := []
  priority : Int := 5
  status : TaskStatus := .pending
  created_at : Nat := 0
deriving DecidableEq, Repr, Inhabited

/-- Dataclass `ExecutionPlan` from `models.py`; the `tasks` dict is modelled
as an association list in insertion order, `generated_at` is omitted. -/
structure ExecutionPlan where
  execution_order : List String := []
  is_valid : Bool := true
  error_message : String := ""
  tasks : List (String × Task) := []
deriving DecidableEq, Repr, Inhabited

/-- Python's substring test `needle in haystack` on the character list of a
string: some suffix of the haystack starts with the needle. -/
def containsSub (needle : List Char) : List Char → Bool
  | [] => needle.isEmpty
  | c :: rest => needle.isPrefixOf (c :: rest) || containsSub needle rest

/-- `needle in haystack` where the haystack is given by its characters. -/
def occursIn (needle : String) (haystack : List Char) : Bool :=
  containsSub needle.toList haystack

/-- The `action_phases` table of `_analyze_with_keywords` (`ai_planner.py`
lines 139–196), in source order. -/
def action_phases : List (String × Nat) :=
  [("start", 1), ("begin", 1), ("plan", 1), ("think", 1),
   ("research", 2), ("analyze", 2), ("study", 2), ("learn", 2),
   ("gather", 2), ("collect", 2),
   ("design", 3), ("design mockup", 3), ("sketch", 3), ("blueprint", 3),
   ("write", 4), ("code", 4), ("implement", 4), ("build", 4),
   ("develop", 4), ("prepare", 4), ("cook", 4),
   ("set", 5), ("arrange", 5),
   ("test", 6), ("review", 6), ("check", 6), ("quality", 6),
   ("submit", 7), ("publish", 7), ("launch", 7), ("deploy", 7),
   ("turn in", 7),
   ("eat", 8), ("enjoy", 8), ("use", 8),
   ("market", 9),
   ("sleep", 10), ("rest", 10), ("relax", 10)]

/-- The lowercase concatenation `(task.name + " " + task.description).lower()`
scanned by the keyword fallback, as a character list (Python `str.lower` and
`Char.toLower` agree on these ASCII texts). -/
def taskText (t : Task) : List Char :=
  ((t.name ++ " " ++ t.description).toList).map Char.toLower

/-- Phase assignment of `_analyze_with_keywords` (`ai_planner.py` lines
199–208): fold `min` over the phases of all matching keywords, starting from
infinity (modelled as `none`), defaulting to 5 when nothing matches. -/
def taskPhase (t : Task) : Nat :=
  let task_text := taskText t
  let min_phase := action_phases.foldl
    (fun acc ap =>
      if occursIn ap.1 task_text then
        match acc with
        | none => some ap.2
        | some m => some (min m ap.2)
      else acc) none
  match min_phase with
  | some m => m
  | none => 5

/-- The keyword fallback `_analyze_with_keywords` (`ai_planner.py` lines
212–219): task `i` depends on task `j` iff `i ≠ j` and `phase(j) < phase(i)`.
The Python dict over `range(n)` is read as a function that is empty off
range. -/
def analyze_with_keywords (tasks : List Task) : Nat → Finset Nat :=
  fun i =>
    if i < tasks.length then
      (Finset.range tasks.length).filter
        (fun j => j ≠ i ∧ taskPhase (tasks.getD j default) < taskPhase (tasks.getD i default))
    else ∅

/-- Outcome of the external classifier call inside `_analyze_with_ai`:
either some exception was raised (transport error, bad response object,
non-integer payload entries hitting `x - 1`), or `json.loads` failed, or a
`dependencies` mapping (JSON string keys to integer lists) was parsed. -/
inductive ClassifierOutcome where
  | raised
  | unparsable
  | parsed (deps : List (String × List Int))
deriving DecidableEq, Repr, Inhabited

/-- Index conversion of `_analyze_with_ai` (`ai_planner.py` lines 117–126):
for each task `i < n` look up key `str(i+1)`; keep listed entries `x` with
`1 ≤ x ≤ n`, shifted to 0-based; a missing key yields the empty set. -/
def convertAiDeps (deps : List (String × List Int)) (n : Nat) : Nat → Finset Nat :=
  fun i =>
    if i < n then
      match deps.lookup (toString (i + 1)) with
      | some l => ((l.filter (fun x => 1 ≤ x ∧ x ≤ (n : Int))).map (fun x => (x - 1).toNat)).toFinset
      | none => ∅
    else ∅

/-- `_analyze_with_ai` (`ai_planner.py` lines 69–129) as a function of the
classifier outcome: an exception propagates (`Except.error`), an unparsable
payload falls back to the keyword analysis inside the `except
json.JSONDecodeError` handler, and a parsed payload is converted. -/
def analyze_with_ai (outcome : ClassifierOutcome) (tasks : List Task) :
    Except Unit (Nat → Finset Nat) :=
  match outcome with
  | .raised => .error ()
  | .unparsable => .ok (analyze_with_keywords tasks)
  | .parsed deps => .ok (convertAiDeps deps tasks.length)

/-- `analyze_dependencies` (`ai_planner.py` lines 45–67): 0 or 1 tasks get
the all-empty relation; with AI enabled, any exception out of
`_analyze_with_ai` is caught and the keyword fallback is used; otherwise the
keyword fallback runs directly.  The function is total: no exception reaches
the caller. -/
def analyze_dependencies (use_ai : Bool) (outcome : ClassifierOutcome)
    (tasks : List Task) : Nat → Finset Nat :=
  if tasks.length ≤ 1 then fun _ => ∅
  else if use_ai then
    match analyze_with_ai outcome tasks with
    | .ok r => r
    | .error _ => analyze_with_keywords tasks
  else analyze_with_keywords tasks

/-- The adjacency lists built by `_topological_sort` (`ai_planner.py` lines
299–306): iterating `dependencies.items()` in insertion order `0..n-1`, each
`i` with `p ∈ dependencies[i]` is appended to `adjacency[p]`, so
`adjacency[p]` is the ascending list of dependents of `p`. -/
def adjOf (deps : Nat → Finset Nat) (n p : Nat) : List Nat :=
  (List.range n).filter (fun i => decide (p ∈ deps i))

/-- The inner loop of Kahn's algorithm over `adjacency[current]`
(`ai_planner.py` lines 317–322): decrement the in-degree of each dependent
in list order and collect, in that order, those whose in-degree hits 0.
In-degrees are integers, exactly as in Python. -/
def relaxAll (in_degree : Nat → Int) : List Nat → (Nat → Int) × List Nat
  | [] => (in_degree, [])
  | d :: rest =>
    let deg2 : Nat → Int := fun i => if i = d then in_degree i - 1 else in_degree i
    let r := relaxAll deg2 rest
    if deg2 d = 0 then (r.1, d :: r.2) else r

/-- The `while queue` loop of `_topological_sort` (`ai_planner.py` lines
312–322): pop the queue head, append it to the result, relax its adjacency
list and append the newly unblocked tasks to the queue tail.  Each task is
enqueued at most once (in-degrees only decrease through 0 once), so the loop
runs at most `num_tasks` iterations; `fuel = num_tasks` makes the recursion
structural without changing the computed result. -/
def kahnLoop (adjacency : Nat → List Nat) :
    Nat → List Nat → (Nat → Int) → List Nat
  | 0, _, _ => []
  | _ + 1, [], _ => []
  | fuel + 1, current :: queue, in_degree =>
    let r := relaxAll in_degree (adjacency current)
    current :: kahnLoop adjacency fuel (queue ++ r.2) r.1

/-- `_topological_sort` (`ai_planner.py` lines 286–328): Kahn's algorithm
with a FIFO queue seeded with the in-degree-0 tasks in ascending index
order; returns `none` when the result misses some task (a cycle). -/
def topological_sort (dependencies : Nat → Finset Nat) (num_tasks : Nat) :
    Option (List Nat) :=
  let adjacency := adjOf dependencies num_tasks
  let in_degree : Nat → Int := fun i => ((dependencies i).card : Int)
  let queue := (List.range num_tasks).filter (fun i => decide (in_degree i = 0))
  let result := kahnLoop adjacency num_tasks queue in_degree
  if result.length = num_tasks then some result else none

/-- `generate_plan` (`ai_planner.py` lines 221–284), parameterized by the
dependency analysis (`self.analyze_dependencies`): the empty task list gets
an empty valid plan; a failed topological sort gets an invalid plan with the
source's error message and empty order; otherwise the plan lists the ids of
the tasks in sorted order together with the id-to-task lookup. -/
def generate_plan (analyze : List Task → (Nat → Finset Nat)) (tasks : List Task) :
    ExecutionPlan :=
  if tasks.isEmpty then { execution_order := [], is_valid := true }
  else
    let dependencies := analyze tasks
    match topological_sort dependencies tasks.length with
    | none =>
      { execution_order := [],
        is_valid := false,
        error_message := "Circular dependency detected among tasks" }
    | some ordered_indices =>
      let ordered_tasks := ordered_indices.map (fun i => tasks.getD i default)
      { execution_order := ordered_tasks.map (fun t => t.id),
        is_valid := true,
        tasks := ordered_tasks.map (fun t => (t.id, t)) }

/-- State of a `TaskExecutor` (`executor.py`): the task list whose `status`
fields it mutates, plus the two control flags. -/
structure ExecState where
  tasks : List Task
  stop_flag : Bool
  pause_flag : Bool
deriving DecidableEq, Repr

/-- Replace the status of the `i`-th task (mutation of `task.status`). -/
def updateStatus (ts : List Task) (i : Nat) (st : TaskStatus) : List Task :=
  ts.set i { ts.getD i default with status := st }

/-- Observable steps of the executor.  `execute_task` (`executor.py` lines
30–48) is split at its two stop-flag observation points, on either side of
the simulated `time.sleep`: `taskBegin i` is the entry check plus the
`RUNNING` write, `taskFinish i` is the post-sleep check plus the `COMPLETED`
write.  `stopExec`, `pauseExec`, `resumeExec` are the control methods, which
the caller may interleave between observation points. -/
inductive ExecEvent where
  | taskBegin (i : Nat)
  | taskFinish (i : Nat)
  | stopExec
  | pauseExec
  | resumeExec
deriving DecidableEq, Repr

/-- One executor step.  `taskBegin` returns early when `stop_flag` is set
and otherwise writes `RUNNING` — it never consults `pause_flag`;
`taskFinish` writes `COMPLETED` only when `stop_flag` is unset;
`stop_execution` (`executor.py` lines 58–65) sets the flag and reverts every
`RUNNING` task to `PENDING`; `pause_execution` / `resume_execution`
(lines 50–56) only toggle `pause_flag`. -/
def stepEvent (s : ExecState) : ExecEvent → ExecState
  | .taskBegin i =>
    if s.stop_flag then s
    else { s with tasks := updateStatus s.tasks i .running }
  | .taskFinish i =>
    if s.stop_flag then s
    else { s with tasks := updateStatus s.tasks i .completed }
  | .stopExec =>
    { s with stop_flag := true,
             tasks := s.tasks.map
               (fun t => if t.status = .running then { t with status := .pending } else t) }
  | .pauseExec => { s with pause_flag := true }
  | .resumeExec => { s with pause_flag := false }

/-- Run a sequence of executor steps. -/
def runEvents (s : ExecState) (es : List ExecEvent) : ExecState :=
  es.foldl stepEvent s

/-- A prerequisite relation over `n` tasks is well formed when all recorded
indices are in range (spec §3: "Invariant: all indices are within [0, N)").
Every relation the source feeds to `_topological_sort` satisfies this. -/
def WellFormed (deps : Nat → Finset Nat) (n : Nat) : Prop :=
  ∀ i < n, ∀ j ∈ deps i, j < n

/-- Acyclicity of the prerequisite relation, stated through the standard
ranking characterization: some measure strictly decreases along every
prerequisite edge.  For finite relations this is exactly the absence of a
directed cycle. -/
def Acyclic (deps : Nat → Finset Nat) (n : Nat) : Prop :=
  ∃ f : Nat → Nat, ∀ i < n, ∀ j ∈ deps i, f j < f i

/-- The relation contains a directed cycle `a → … → a` within range, where
`x ∈ deps y` means "x must precede y". -/
def HasCycle (deps : Nat → Finset Nat) (n : Nat) : Prop :=
  ∃ a : Nat, ∃ l : List Nat, (∀ x ∈ a :: l, x < n) ∧
    List.Chain (fun x y => x ∈ deps y) a l ∧
    (a :: l).getLast (List.cons_ne_nil a l) ∈ deps a

/-- Number of prerequisites of `i` not yet processed (not in `R`): the value
`in_degree[i]` holds after the tasks of `R` have been popped. -/
def curDeg (deps : Nat → Finset Nat) (R : List Nat) (i : Nat) : Nat :=
  ((deps i).filter (fun p => p ∉ R)).card

/-- The running-minimum fold of `_analyze_with_keywords`, `none` playing
`float('inf')`. -/
def minAux (acc : Option Nat) (ps : List Nat) : Option Nat :=
  ps.foldl (fun a p =>
    match a with
    | none => some p
    | some m => some (min m p)) acc

/-- The phases of the keywords occurring in a task's text, in table order:
the spec-side reading of "all keywords occurring in the lowercase
concatenation of name and description". -/
def matchingPhases (t : Task) : List Nat :=
  (action_phases.filter (fun ap => occursIn ap.1 (taskText t))).map (fun ap => ap.2)
/-- The end-to-end scenario task list of spec §8. -/
def demoTasks : List Task :=
  [{ id := "task_0", name := "Research topic" },
   { id := "task_1", name := "Write report" },
   { id := "task_2", name := "Submit report" }]
/-- Three pending tasks for the execution scenarios. -/
def demoRun : List Task :=
  [{ id := "t1", name := "Task one" },
   { id := "t2", name := "Task two" },
   { id := "t3", name := "Task three" }]

/-- The state after task 1 completed and a stop reverted task 2. -/
def demoStopped : List Task :=
  [{ id := "t1", name := "Task one", status := .completed },
   { id := "t2", name := "Task two" },
   { id := "t3", name := "Task three" }]

/-- State-passing embedding of `analyze_dependencies` threading the task
store: the Python method receives the `Task` objects by reference and
contains no assignment to any task attribute, so it hands the store back
exactly as received. -/
def analyze_dependencies_mut (use_ai : Bool) (outcome : ClassifierOutcome)
    (tasks : List Task) : (Nat → Finset Nat) × List Task :=
  (analyze_dependencies use_ai outcome tasks, tasks)

/-- State-passing embedding of `generate_plan` threading the task store
through `analyze_dependencies` and the sort; no stage of the source writes
to a task attribute, all writes target freshly built structures. -/
def generate_plan_mut (use_ai : Bool) (outcome : ClassifierOutcome)
    (tasks : List Task) : ExecutionPlan × List Task :=
  if tasks.isEmpty then ({ execution_order := [], is_valid := true }, tasks)
  else
    let ar := analyze_dependencies_mut use_ai outcome tasks
    match topological_sort ar.1 ar.2.length with
    | none =>
      ({ execution_order := [], is_valid := false,
         error_message := "Circular dependency detected among tasks" }, ar.2)
    | some ordered_indices =>
      let ordered_tasks := ordered_indices.map (fun i => ar.2.getD i default)
      ({ execution_order := ordered_tasks.map (fun t => t.id), is_valid := true,
         tasks := ordered_tasks.map (fun t => (t.id, t)) }, ar.2)

/-- Loop invariant of Kahn's algorithm, relating the processed prefix `R`,
the pending queue `Q` and the mutable in-degree table `D`. -/
structure KahnInv (deps : Nat → Finset Nat) (n : Nat) (R Q : List Nat)
    (D : Nat → Int) : Prop where
  degEq : ∀ i < n, D i = (curDeg deps R i : Int)
  nodupR : R.Nodup
  nodupQ : Q.Nodup
  disjQR : ∀ x ∈ Q, x ∉ R
  ltR : ∀ x ∈ R, x < n
  ltQ : ∀ x ∈ Q, x < n
  queued : ∀ i < n, curDeg deps R i = 0 → i ∉ R → i ∈ Q
  zeroQ : ∀ x ∈ Q, curDeg deps R x = 0
  closedR : ∀ i ∈ R, ∀ j ∈ deps i, j ∈ R
  orderR : ∀ i ∈ R, ∀ j ∈ deps i, R.indexOf j < R.indexOf i

theorem relaxAll_fst (l : List Nat) (hl : l.Nodup) (D : Nat → Int) (x : Nat) :
    (relaxAll D l).1 x = if x ∈ l then D x - 1 else D x := by
  induction l generalizing D with
  | nil => simp [relaxAll]
  | cons d rest ih =>
    rw [List.nodup_cons] at hl
    have h1 : (relaxAll D (d :: rest)).1
        = (relaxAll (fun i => if i = d then D i - 1 else D i) rest).1 := by
      simp [relaxAll, apply_ite Prod.fst]
    rw [h1, ih hl.2]
    by_cases hx : x = d
    · subst hx
      simp [hl.1]
    · by_cases hxr : x ∈ rest <;> simp [hxr, hx]

theorem relaxAll_snd (l : List Nat) (hl : l.Nodup) (D : Nat → Int) :
    (relaxAll D l).2 = l.filter (fun d => decide (D d - 1 = 0)) := by
  induction l generalizing D with
  | nil => simp [relaxAll]
  | cons d rest ih =>
    rw [List.nodup_cons] at hl
    have hcongr : rest.filter (fun e => decide ((if e = d then D e - 1 else D e) - 1 = 0))
        = rest.filter (fun e => decide (D e - 1 = 0)) := by
      apply List.filter_congr
      intro e he
      have : e ≠ d := fun h => hl.1 (h ▸ he)
      simp [this]
    have h2 : (relaxAll D (d :: rest)).2
        = if D d - 1 = 0 then
            d :: (relaxAll (fun i => if i = d then D i - 1 else D i) rest).2
          else (relaxAll (fun i => if i = d then D i - 1 else D i) rest).2 := by
      simp [relaxAll, apply_ite Prod.snd]
    rw [h2, ih hl.2, hcongr, List.filter_cons]
    by_cases hd : D d - 1 = 0 <;> simp [hd]

theorem curDeg_nil (deps : Nat → Finset Nat) (i : Nat) :
    curDeg deps [] i = (deps i).card := by
  simp [curDeg]

theorem curDeg_append_le (deps : Nat → Finset Nat) (R : List Nat) (c i : Nat) :
    curDeg deps (R ++ [c]) i ≤ curDeg deps R i := by
  apply Finset.card_le_card
  intro p hp
  simp only [Finset.mem_filter, List.mem_append] at hp ⊢
  tauto

theorem curDeg_append (deps : Nat → Finset Nat) (R : List Nat) (c : Nat)
    (hc : c ∉ R) (i : Nat) :
    (curDeg deps (R ++ [c]) i : Int)
      = (curDeg deps R i : Int) - (if c ∈ deps i then 1 else 0) := by
  have hB : (deps i).filter (fun p => p ∉ R ++ [c])
      = ((deps i).filter (fun p => p ∉ R)).erase c := by
    ext x
    simp only [Finset.mem_filter, Finset.mem_erase, List.mem_append, List.mem_singleton]
    tauto
  unfold curDeg
  rw [hB]
  by_cases hci : c ∈ deps i
  · have hcA : c ∈ (deps i).filter (fun p => p ∉ R) := by
      simp [Finset.mem_filter, hci, hc]
    rw [Finset.card_erase_of_mem hcA, if_pos hci]
    have h1 : 1 ≤ ((deps i).filter (fun p => p ∉ R)).card :=
      Finset.card_pos.mpr ⟨c, hcA⟩
    omega
  · have hcA : c ∉ (deps i).filter (fun p => p ∉ R) := by
      simp [Finset.mem_filter, hci]
    rw [Finset.erase_eq_of_not_mem hcA, if_neg hci]
    ring

/-- Membership in the adjacency list of `p`. -/
theorem mem_adjOf (deps : Nat → Finset Nat) (n p i : Nat) :
    i ∈ adjOf deps n p ↔ i < n ∧ p ∈ deps i := by
  simp [adjOf, List.mem_filter, List.mem_range]

theorem adjOf_nodup (deps : Nat → Finset Nat) (n p : Nat) :
    (adjOf deps n p).Nodup :=
  (List.nodup_range n).filter _

/-- The invariant holds at the start of the loop. -/
theorem kahnInv_init (deps : Nat → Finset Nat) (n : Nat) :
    KahnInv deps n []
      ((List.range n).filter (fun i => decide ((((deps i).card : Int)) = 0)))
      (fun i => ((deps i).card : Int)) := by
  constructor
  · intro i _
    simp [curDeg_nil]
  · exact List.nodup_nil
  · exact (List.nodup_range n).filter _
  · intro x _
    simp
  · intro x hx
    simp at hx
  · intro x hx
    simp only [List.mem_filter, List.mem_range] at hx
    exact hx.1
  · intro i hi h0 _
    simp only [List.mem_filter, List.mem_range, decide_eq_true_eq]
    refine ⟨hi, ?_⟩
    rw [curDeg_nil] at h0
    exact_mod_cast congrArg (Nat.cast (R := Int)) h0
  · intro x hx
    simp only [List.mem_filter, decide_eq_true_eq] at hx
    rw [curDeg_nil]
    exact_mod_cast hx.2
  · intro i hi
    simp at hi
  · intro i hi
    simp at hi

/-- Popping the queue head `c` and relaxing its adjacency list preserves the
invariant. -/
theorem kahnInv_step (deps : Nat → Finset Nat) (n : Nat)
    (R Q' : List Nat) (D : Nat → Int) (c : Nat)
    (hinv : KahnInv deps n R (c :: Q') D) :
    KahnInv deps n (R ++ [c])
      (Q' ++ (relaxAll D (adjOf deps n c)).2)
      (relaxAll D (adjOf deps n c)).1 := by
  have hadjN : (adjOf deps n c).Nodup := adjOf_nodup deps n c
  have hfst := relaxAll_fst (adjOf deps n c) hadjN D
  have hsnd := relaxAll_snd (adjOf deps n c) hadjN D
  have hcQ : c ∈ c :: Q' := List.mem_cons_self c Q'
  have hcn : c < n := hinv.ltQ c hcQ
  have hcR : c ∉ R := hinv.disjQR c hcQ
  have hc0 : curDeg deps R c = 0 := hinv.zeroQ c hcQ
  have hcQ' : c ∉ Q' := (List.nodup_cons.1 hinv.nodupQ).1
  have hnodupQ' : Q'.Nodup := (List.nodup_cons.1 hinv.nodupQ).2
  have hdepsc : ∀ j ∈ deps c, j ∈ R := by
    intro j hj
    have hempty : (deps c).filter (fun p => p ∉ R) = ∅ :=
      Finset.card_eq_zero.1 hc0
    by_contra hjR
    have : j ∈ (deps c).filter (fun p => p ∉ R) := by
      simp [Finset.mem_filter, hj, hjR]
    rw [hempty] at this
    exact absurd this (Finset.not_mem_empty j)
  have hmem_newly : ∀ x, x ∈ (relaxAll D (adjOf deps n c)).2 ↔
      (x < n ∧ c ∈ deps x ∧ D x - 1 = 0) := by
    intro x
    rw [hsnd, List.mem_filter]
    simp only [decide_eq_true_eq, mem_adjOf]
    tauto
  constructor
  · -- degEq
    intro i hin
    rw [hfst i]
    by_cases hi : i ∈ adjOf deps n c
    · have hci : c ∈ deps i := ((mem_adjOf deps n c i).1 hi).2
      rw [if_pos hi, hinv.degEq i hin, curDeg_append deps R c hcR i, if_pos hci]
    · have hci : c ∉ deps i := fun h => hi ((mem_adjOf deps n c i).2 ⟨hin, h⟩)
      rw [if_neg hi, hinv.degEq i hin, curDeg_append deps R c hcR i, if_neg hci]
      ring
  · -- nodupR
    simp [List.nodup_append, hinv.nodupR, hcR]
  · -- nodupQ
    rw [List.nodup_append]
    refine ⟨hnodupQ', hsnd ▸ hadjN.filter _, ?_⟩
    intro x hxQ hxN
    have h1 : curDeg deps R x = 0 := hinv.zeroQ x (List.mem_cons_of_mem c hxQ)
    have hxn : x < n := hinv.ltQ x (List.mem_cons_of_mem c hxQ)
    have h2 : D x - 1 = 0 := ((hmem_newly x).1 hxN).2.2
    rw [hinv.degEq x hxn, h1] at h2
    simp at h2
  · -- disjQR
    intro x hx
    rw [List.mem_append] at hx
    rw [List.mem_append, List.mem_singleton]
    rcases hx with hxQ | hxN
    · push_neg
      refine ⟨hinv.disjQR x (List.mem_cons_of_mem c hxQ), ?_⟩
      intro hxc
      exact hcQ' (hxc ▸ hxQ)
    · obtain ⟨hxn, hcx, hDx⟩ := (hmem_newly x).1 hxN
      push_neg
      constructor
      · intro hxR
        exact hcR (hinv.closedR x hxR c hcx)
      · intro hxc
        subst hxc
        rw [hinv.degEq x hxn, hc0] at hDx
        simp at hDx
  · -- ltR
    intro x hx
    rw [List.mem_append, List.mem_singleton] at hx
    rcases hx with hxR | rfl
    · exact hinv.ltR x hxR
    · exact hcn
  · -- ltQ
    intro x hx
    rw [List.mem_append] at hx
    rcases hx with hxQ | hxN
    · exact hinv.ltQ x (List.mem_cons_of_mem c hxQ)
    · exact ((hmem_newly x).1 hxN).1
  · -- queued
    intro i hin h0 hiR
    rw [List.mem_append, List.mem_singleton] at hiR
    push_neg at hiR
    have hInt := curDeg_append deps R c hcR i
    rw [h0] at hInt
    rw [List.mem_append]
    by_cases hci : c ∈ deps i
    · right
      rw [if_pos hci] at hInt
      have h1 : (curDeg deps R i : Int) = 1 := by omega
      refine (hmem_newly i).2 ⟨hin, hci, ?_⟩
      rw [hinv.degEq i hin, h1]
      ring
    · left
      rw [if_neg hci] at hInt
      have h1 : curDeg deps R i = 0 := by omega
      have := hinv.queued i hin h1 hiR.1
      rcases List.mem_cons.1 this with h | h
      · exact absurd h hiR.2
      · exact h
  · -- zeroQ
    intro x hx
    rw [List.mem_append] at hx
    rcases hx with hxQ | hxN
    · have h1 : curDeg deps R x = 0 := hinv.zeroQ x (List.mem_cons_of_mem c hxQ)
      have := curDeg_append_le deps R c x
      omega
    · obtain ⟨hxn, hcx, hDx⟩ := (hmem_newly x).1 hxN
      rw [hinv.degEq x hxn] at hDx
      have hInt := curDeg_append deps R c hcR x
      rw [if_pos hcx] at hInt
      omega
  · -- closedR
    intro i hi j hj
    rw [List.mem_append, List.mem_singleton] at hi
    rw [List.mem_append, List.mem_singleton]
    rcases hi with hiR | rfl
    · exact Or.inl (hinv.closedR i hiR j hj)
    · exact Or.inl (hdepsc j hj)
  · -- orderR
    intro i hi j hj
    rw [List.mem_append, List.mem_singleton] at hi
    rcases hi with hiR | rfl
    · have hjR : j ∈ R := hinv.closedR i hiR j hj
      rw [List.indexOf_append_of_mem hjR, List.indexOf_append_of_mem hiR]
      exact hinv.orderR i hiR j hj
    · have hjR : j ∈ R := hdepsc j hj
      rw [List.indexOf_append_of_mem hjR, List.indexOf_append_of_not_mem hcR]
      calc R.indexOf j < R.length := List.indexOf_lt_length.2 hjR
        _ ≤ R.length + List.indexOf i [i] := Nat.le_add_right _ _

/-- A duplicate-free list of `n` naturals below `n` contains every `i < n`. -/
theorem mem_of_nodup_lt (R : List Nat) (n : Nat) (hnd : R.Nodup)
    (hlt : ∀ x ∈ R, x < n) (hlen : n ≤ R.length) : ∀ i < n, i ∈ R := by
  intro i hi
  have hsub : R.toFinset ⊆ Finset.range n := by
    intro x hx
    rw [List.mem_toFinset] at hx
    exact Finset.mem_range.2 (hlt x hx)
  have hcard : (Finset.range n).card ≤ R.toFinset.card := by
    rw [List.toFinset_card_of_nodup hnd, Finset.card_range]
    exact hlen
  have heq := Finset.eq_of_subset_of_card_le hsub hcard
  have : i ∈ R.toFinset := heq ▸ Finset.mem_range.2 hi
  exact List.mem_toFinset.1 this

/-- What the Kahn loop guarantees from any state satisfying the invariant,
provided the fuel covers the remaining tasks: the accumulated output is
duplicate-free, in range, respects every prerequisite edge, and any
unprocessed task still has an unprocessed prerequisite. -/
theorem kahnLoop_spec (deps : Nat → Finset Nat) (n : Nat) :
    ∀ (fuel : Nat) (R Q : List Nat) (D : Nat → Int),
      KahnInv deps n R Q D → n ≤ fuel + R.length →
      ∀ T, T = R ++ kahnLoop (adjOf deps n) fuel Q D →
      T.Nodup ∧ (∀ x ∈ T, x < n) ∧
      (∀ i ∈ T, ∀ j ∈ deps i, j ∈ T ∧ T.indexOf j < T.indexOf i) ∧
      (∀ i < n, i ∉ T → curDeg deps T i ≠ 0) := by
  intro fuel
  induction fuel with
  | zero =>
    intro R Q D hinv hlen T hT
    have hTR : T = R := by simp [hT, kahnLoop]
    subst hTR
    refine ⟨hinv.nodupR, hinv.ltR, ?_, ?_⟩
    · intro i hi j hj
      exact ⟨hinv.closedR i hi j hj, hinv.orderR i hi j hj⟩
    · intro i hi hiT
      exact absurd (mem_of_nodup_lt T n hinv.nodupR hinv.ltR (by omega) i hi) hiT
  | succ fuel ih =>
    intro R Q D hinv hlen T hT
    cases Q with
    | nil =>
      have hTR : T = R := by simp [hT, kahnLoop]
      subst hTR
      refine ⟨hinv.nodupR, hinv.ltR, ?_, ?_⟩
      · intro i hi j hj
        exact ⟨hinv.closedR i hi j hj, hinv.orderR i hi j hj⟩
      · intro i hi hiT h0
        exact absurd (hinv.queued i hi h0 hiT) (List.not_mem_nil i)
    | cons c Q' =>
      have hstep := kahnInv_step deps n R Q' D c hinv
      have hlen' : n ≤ fuel + (R ++ [c]).length := by
        rw [List.length_append, List.length_singleton]
        omega
      have hunfold : kahnLoop (adjOf deps n) (fuel + 1) (c :: Q') D
          = c :: kahnLoop (adjOf deps n) fuel
              (Q' ++ (relaxAll D (adjOf deps n c)).2)
              (relaxAll D (adjOf deps n c)).1 := rfl
      have hT' : T = (R ++ [c]) ++ kahnLoop (adjOf deps n) fuel
          (Q' ++ (relaxAll D (adjOf deps n c)).2)
          (relaxAll D (adjOf deps n c)).1 := by
        rw [hT, hunfold, List.append_assoc, List.singleton_append]
      exact ih (R ++ [c]) (Q' ++ (relaxAll D (adjOf deps n c)).2)
        (relaxAll D (adjOf deps n c)).1 hstep hlen' T hT'

/-- Everything `_topological_sort` returns on a successful run: a
duplicate-free enumeration of all `num_tasks` indices in which every
prerequisite of a task appears strictly earlier. -/
theorem topological_sort_spec (deps : Nat → Finset Nat) (n : Nat)
    (out : List Nat) (h : topological_sort deps n = some out) :
    out.Nodup ∧ (∀ x ∈ out, x < n) ∧ out.length = n ∧ (∀ i < n, i ∈ out) ∧
    (∀ i ∈ out, ∀ j ∈ deps i, j ∈ out ∧ out.indexOf j < out.indexOf i) := by
  simp only [topological_sort] at h
  set result := kahnLoop (adjOf deps n) n
    ((List.range n).filter (fun i => decide ((((deps i).card : Int)) = 0)))
    (fun i => ((deps i).card : Int)) with hres
  by_cases hl : result.length = n
  · rw [if_pos hl] at h
    have hout : out = result := by
      injection h with h'
      exact h'.symm
    obtain ⟨hnd, hlt, hord, _⟩ := kahnLoop_spec deps n n []
      ((List.range n).filter (fun i => decide ((((deps i).card : Int)) = 0)))
      (fun i => ((deps i).card : Int)) (kahnInv_init deps n) (by simp) result
      (by rw [List.nil_append])
    rw [hout]
    exact ⟨hnd, hlt, hl, mem_of_nodup_lt result n hnd hlt (by omega), hord⟩
  · rw [if_neg hl] at h
    exact absurd h (by simp)

/-- With a well-formed acyclic relation the sort never reports a cycle. -/
theorem topological_sort_complete (deps : Nat → Finset Nat) (n : Nat)
    (hwf : WellFormed deps n) (hacyc : Acyclic deps n) :
    ∃ out, topological_sort deps n = some out := by
  simp only [topological_sort]
  set result := kahnLoop (adjOf deps n) n
    ((List.range n).filter (fun i => decide ((((deps i).card : Int)) = 0)))
    (fun i => ((deps i).card : Int)) with hres
  by_cases hl : result.length = n
  · exact ⟨result, by rw [if_pos hl]⟩
  · exfalso
    obtain ⟨hnd, hlt, _, hleft⟩ := kahnLoop_spec deps n n []
      ((List.range n).filter (fun i => decide ((((deps i).card : Int)) = 0)))
      (fun i => ((deps i).card : Int)) (kahnInv_init deps n) (by simp) result
      (by rw [List.nil_append])
    have hlenle : result.length ≤ n := by
      have hsub : result.toFinset ⊆ Finset.range n := by
        intro x hx
        rw [List.mem_toFinset] at hx
        exact Finset.mem_range.2 (hlt x hx)
      have := Finset.card_le_card hsub
      rw [List.toFinset_card_of_nodup hnd, Finset.card_range] at this
      exact this
    have hmiss : ∃ i, i < n ∧ i ∉ result := by
      by_contra hall
      push_neg at hall
      have : n ≤ result.length := by
        have hsub2 : Finset.range n ⊆ result.toFinset := by
          intro x hx
          rw [List.mem_toFinset]
          exact hall x (Finset.mem_range.1 hx)
        have := Finset.card_le_card hsub2
        rw [List.toFinset_card_of_nodup hnd, Finset.card_range] at this
        exact this
      omega
    obtain ⟨f, hf⟩ := hacyc
    set S := (Finset.range n).filter (fun i => i ∉ result) with hS
    have hSne : S.Nonempty := by
      obtain ⟨i, hi, hir⟩ := hmiss
      exact ⟨i, by simp [hS, Finset.mem_filter, hi, hir]⟩
    obtain ⟨i0, hi0S, hi0min⟩ := Finset.exists_min_image S f hSne
    have hi0n : i0 < n := Finset.mem_range.1 (Finset.mem_filter.1 hi0S).1
    have hi0r : i0 ∉ result := by
      have := (Finset.mem_filter.1 hi0S).2
      simpa using this
    have hdeg := hleft i0 hi0n hi0r
    have hne : ((deps i0).filter (fun p => p ∉ result)).Nonempty := by
      rw [← Finset.card_pos]
      have : curDeg deps result i0 ≠ 0 := hdeg
      unfold curDeg at this
      omega
    obtain ⟨j, hj⟩ := hne
    rw [Finset.mem_filter] at hj
    have hjn : j < n := hwf i0 hi0n j hj.1
    have hjS : j ∈ S := by
      simp [hS, Finset.mem_filter, hjn]
      simpa using hj.2
    have h1 : f i0 ≤ f j := hi0min j hjS
    have h2 : f j < f i0 := hf i0 hi0n j hj.1
    omega

/-- With a relation containing a cycle the sort always reports failure. -/
theorem topological_sort_cycle (deps : Nat → Finset Nat) (n : Nat)
    (hcyc : HasCycle deps n) : topological_sort deps n = none := by
  cases hres : topological_sort deps n with
  | none => rfl
  | some out =>
    exfalso
    obtain ⟨hnd, hlt, hlen, hmem, hord⟩ := topological_sort_spec deps n out hres
    obtain ⟨a, l, hltc, hchain, hlast⟩ := hcyc
    have hchain_le : ∀ (b : Nat) (m : List Nat),
        List.Chain (fun x y => x ∈ deps y) b m → (∀ x ∈ b :: m, x < n) →
        out.indexOf b ≤ out.indexOf ((b :: m).getLast (List.cons_ne_nil b m)) := by
      intro b m
      induction m generalizing b with
      | nil =>
        intro _ _
        simp
      | cons x m ihm =>
        intro hch hltm
        cases hch with
        | cons hbx hch' =>
          have hxn : x < n := hltm x (by simp)
          have h1 : out.indexOf b < out.indexOf x := (hord x (hmem x hxn) b hbx).2
          have h2 : out.indexOf x ≤ out.indexOf ((x :: m).getLast (List.cons_ne_nil x m)) := by
            refine ihm x hch' ?_
            intro y hy
            exact hltm y (List.mem_cons_of_mem b hy)
          rw [List.getLast_cons (List.cons_ne_nil x m)]
          omega
    have h3 := hchain_le a l hchain hltc
    have han : a < n := hltc a (List.mem_cons_self a l)
    have h4 : out.indexOf ((a :: l).getLast (List.cons_ne_nil a l)) < out.indexOf a :=
      (hord a (hmem a han) _ hlast).2
    omega

theorem getD_lt {α : Type} {l : List α} {n : Nat} (d : α) (h : n < l.length) :
    l.getD n d = l[n] := by
  simp [List.getD_eq_getElem?_getD, List.getElem?_eq_getElem h]

theorem getD_mem {α : Type} {l : List α} {n : Nat} (d : α) (h : n < l.length) :
    l.getD n d ∈ l := by
  rw [getD_lt d h]
  exact List.get_mem l n h

/-- Reading a list back through `getD` over `range` reproduces its map. -/
theorem map_getD_range {α β : Type} (l : List α) (d : α) (f : α → β) :
    (List.range l.length).map (fun i => f (l.getD i d)) = l.map f := by
  apply List.ext_getElem
  · simp
  · intro k h1 h2
    simp only [List.getElem_map, List.getElem_range]
    rw [getD_lt d (by simpa using h2)]

/-- `indexOf` commutes with an injective-on-the-list map. -/
theorem indexOf_map_inj {α β : Type} [DecidableEq α] [DecidableEq β]
    (l : List α) (f : α → β) (a : α) (ha : a ∈ l)
    (hinj : ∀ x ∈ l, f x = f a → x = a) :
    (l.map f).indexOf (f a) = l.indexOf a := by
  induction l with
  | nil => simp at ha
  | cons b t ih =>
    by_cases hba : b = a
    · subst hba
      rw [List.map_cons, List.indexOf_cons_self, List.indexOf_cons_self]
    · have hfba : f b ≠ f a := fun h => hba (hinj b (List.mem_cons_self b t) h)
      have hat : a ∈ t := by
        rcases List.mem_cons.1 ha with h | h
        · exact absurd h.symm hba
        · exact h
      rw [List.map_cons, List.indexOf_cons_ne _ hfba, List.indexOf_cons_ne _ hba]
      rw [ih hat (fun x hx => hinj x (List.mem_cons_of_mem b hx))]

/-- Distinct task ids make index recovery through ids injective. -/
theorem id_inj_of_nodup (tasks : List Task)
    (hids : (tasks.map (fun t => t.id)).Nodup) (x y : Nat)
    (hx : x < tasks.length) (hy : y < tasks.length)
    (h : (tasks.getD x default).id = (tasks.getD y default).id) : x = y := by
  have hx' : x < (tasks.map (fun t => t.id)).length := by simpa using hx
  have hy' : y < (tasks.map (fun t => t.id)).length := by simpa using hy
  have hxy : (tasks.map (fun t => t.id))[x] = (tasks.map (fun t => t.id))[y] := by
    simp only [List.getElem_map]
    rw [getD_lt default hx, getD_lt default hy] at h
    exact h
  exact (List.Nodup.getElem_inj_iff hids).1 hxy

/-- A duplicate-free list of `n` naturals below `n` is a permutation of
`range n`. -/
theorem perm_range_of_nodup_lt (out : List Nat) (n : Nat) (hnd : out.Nodup)
    (hlt : ∀ x ∈ out, x < n) (hlen : out.length = n) :
    out.Perm (List.range n) := by
  have hsub : out ⊆ List.range n := fun x hx => List.mem_range.2 (hlt x hx)
  have hsp := List.subperm_of_subset hnd hsub
  exact hsp.perm_of_length_le (by simp [hlen])

/-- Unfolding `generate_plan` when the sort succeeds. -/
theorem generate_plan_some (analyze : List Task → (Nat → Finset Nat))
    (tasks : List Task) (out : List Nat) (hne : tasks ≠ [])
    (h : topological_sort (analyze tasks) tasks.length = some out) :
    generate_plan analyze tasks =
      { execution_order := out.map (fun i => (tasks.getD i default).id),
        is_valid := true,
        error_message := "",
        tasks := out.map (fun i => ((tasks.getD i default).id, tasks.getD i default)) } := by
  simp only [generate_plan, List.isEmpty_iff]
  rw [if_neg hne, h]
  simp [List.map_map, Function.comp]

/-- Unfolding `generate_plan` when the sort fails. -/
theorem generate_plan_none (analyze : List Task → (Nat → Finset Nat))
    (tasks : List Task) (hne : tasks ≠ [])
    (h : topological_sort (analyze tasks) tasks.length = none) :
    generate_plan analyze tasks =
      { execution_order := [],
        is_valid := false,
        error_message := "Circular dependency detected among tasks",
        tasks := [] } := by
  simp only [generate_plan, List.isEmpty_iff]
  rw [if_neg hne, h]

/-- C1: for every task list and every well-formed acyclic prerequisite
relation over it, `generate_plan` returns a valid plan built from a total
ordering of the task indices in which, for every edge `j ∈ dependencies[i]`,
the position of `j` strictly precedes the position of `i`; consequently
(whenever the identifiers are distinct, which is what makes positions of
identifiers in `execution_order` well defined) the identifier of task `j`
appears strictly before the identifier of task `i`. -/
theorem C1_generate_plan_valid_and_respects_edges (tasks : List Task)
    (deps : Nat → Finset Nat) (hwf : WellFormed deps tasks.length)
    (hacyc : Acyclic deps tasks.length) :
    (generate_plan (fun _ => deps) tasks).is_valid = true ∧
    ∃ order, topological_sort deps tasks.length = some order ∧
      (generate_plan (fun _ => deps) tasks).execution_order
        = order.map (fun k => (tasks.getD k default).id) ∧
      (∀ i < tasks.length, ∀ j ∈ deps i,
        order.indexOf j < order.indexOf i) ∧
      ((tasks.map (fun t => t.id)).Nodup →
        ∀ i < tasks.length, ∀ j ∈ deps i,
          (generate_plan (fun _ => deps) tasks).execution_order.indexOf
              ((tasks.getD j default).id)
            < (generate_plan (fun _ => deps) tasks).execution_order.indexOf
              ((tasks.getD i default).id)) := by
  obtain ⟨out, hsort⟩ := topological_sort_complete deps tasks.length hwf hacyc
  obtain ⟨hnd, hlt, hlen, hmemall, hord⟩ :=
    topological_sort_spec deps tasks.length out hsort
  have horder : (generate_plan (fun _ => deps) tasks).execution_order
      = out.map (fun k => (tasks.getD k default).id) := by
    by_cases hne : tasks = []
    · subst hne
      have : out = [] := List.eq_nil_of_length_eq_zero hlen
      rw [this]
      rfl
    · rw [generate_plan_some (fun _ => deps) tasks out hne hsort]
  have hvalid : (generate_plan (fun _ => deps) tasks).is_valid = true := by
    by_cases hne : tasks = []
    · subst hne
      rfl
    · rw [generate_plan_some (fun _ => deps) tasks out hne hsort]
  have hidxall : ∀ i < tasks.length, ∀ j ∈ deps i,
      out.indexOf j < out.indexOf i := by
    intro i hi j hj
    exact (hord i (hmemall i hi) j hj).2
  refine ⟨hvalid, out, hsort, horder, hidxall, ?_⟩
  intro hids i hi j hj
  have hiout : i ∈ out := hmemall i hi
  have hjn : j < tasks.length := hwf i hi j hj
  obtain ⟨hjout, hidx⟩ := hord i hiout j hj
  have e1 : (out.map (fun k => (tasks.getD k default).id)).indexOf
      ((tasks.getD j default).id) = out.indexOf j :=
    indexOf_map_inj out (fun k => (tasks.getD k default).id) j hjout
      (fun x hx hfx => id_inj_of_nodup tasks hids x j (hlt x hx) hjn hfx)
  have e2 : (out.map (fun k => (tasks.getD k default).id)).indexOf
      ((tasks.getD i default).id) = out.indexOf i :=
    indexOf_map_inj out (fun k => (tasks.getD k default).id) i hiout
      (fun x hx hfx => id_inj_of_nodup tasks hids x i (hlt x hx) hi hfx)
  rw [horder, e1, e2]
  exact hidx

/-- Witness for C1 on the three-task demo relation `{0: {}, 1: {0},
2: {0, 1}}`. -/
theorem C1_witness :
    (generate_plan (fun _ => (fun i => if i = 2 then ({0, 1} : Finset Nat)
        else if i = 1 then {0} else ∅))
      [{ id := "task_0", name := "Research topic" },
       { id := "task_1", name := "Write report" },
       { id := "task_2", name := "Submit report" }]).is_valid = true :=
  (C1_generate_plan_valid_and_respects_edges
    [{ id := "task_0", name := "Research topic" },
     { id := "task_1", name := "Write report" },
     { id := "task_2", name := "Submit report" }]
    (fun i => if i = 2 then ({0, 1} : Finset Nat) else if i = 1 then {0} else ∅)
    (by unfold WellFormed; decide) ⟨fun k => k, by decide⟩).1

/-- C2: for every task list and every prerequisite relation containing a
cycle, `generate_plan` returns an invalid plan: `is_valid = false`, empty
`execution_order`, and a non-empty `error_message` — never a partial
ordering. -/
theorem C2_generate_plan_cycle_invalid (tasks : List Task)
    (deps : Nat → Finset Nat) (hcyc : HasCycle deps tasks.length) :
    (generate_plan (fun _ => deps) tasks).is_valid = false ∧
    (generate_plan (fun _ => deps) tasks).execution_order = [] ∧
    (generate_plan (fun _ => deps) tasks).error_message ≠ "" := by
  have hne : tasks ≠ [] := by
    obtain ⟨a, l, hlt, _, _⟩ := hcyc
    have ha := hlt a (List.mem_cons_self a l)
    intro h
    rw [h] at ha
    simp at ha
  have hsort := topological_sort_cycle deps tasks.length hcyc
  have hplan := generate_plan_none (fun _ => deps) tasks hne hsort
  rw [hplan]
  exact ⟨rfl, rfl, by decide⟩

/-- Witness for C2 on a two-task cycle `{0: {1}, 1: {0}}`. -/
theorem C2_witness :
    (generate_plan (fun _ => (fun i => if i = 0 then ({1} : Finset Nat)
        else if i = 1 then {0} else ∅))
      [{ id := "a", name := "A" }, { id := "b", name := "B" }]).is_valid = false :=
  (C2_generate_plan_cycle_invalid
    [{ id := "a", name := "A" }, { id := "b", name := "B" }]
    (fun i => if i = 0 then ({1} : Finset Nat) else if i = 1 then {0} else ∅)
    ⟨0, [1], by decide, List.Chain.cons (by decide) List.Chain.nil, by decide⟩).1

/-- C3: for every task list with pairwise-distinct identifiers and every
relation the analysis may produce, a valid plan's `execution_order` is a
permutation of the input identifiers (duplicate-free, of the same length),
and an invalid plan has empty `execution_order` and non-empty
`error_message`. -/
theorem C3_generate_plan_invariants (analyze : List Task → (Nat → Finset Nat))
    (tasks : List Task) (hids : (tasks.map (fun t => t.id)).Nodup) :
    ((generate_plan analyze tasks).is_valid = true →
      (generate_plan analyze tasks).execution_order.Perm (tasks.map (fun t => t.id)) ∧
      (generate_plan analyze tasks).execution_order.Nodup ∧
      (generate_plan analyze tasks).execution_order.length = tasks.length) ∧
    ((generate_plan analyze tasks).is_valid = false →
      (generate_plan analyze tasks).execution_order = [] ∧
      (generate_plan analyze tasks).error_message ≠ "") := by
  by_cases hne : tasks = []
  · subst hne
    constructor
    · intro _
      exact ⟨List.Perm.refl _, List.nodup_nil, rfl⟩
    · intro hinv
      exact absurd hinv (by simp [generate_plan])
  · cases hsort : topological_sort (analyze tasks) tasks.length with
    | none =>
      have hplan := generate_plan_none analyze tasks hne hsort
      rw [hplan]
      constructor
      · intro h
        simp at h
      · intro _
        exact ⟨rfl, by decide⟩
    | some out =>
      have hplan := generate_plan_some analyze tasks out hne hsort
      obtain ⟨hnd, hlt, hlen, _, _⟩ :=
        topological_sort_spec (analyze tasks) tasks.length out hsort
      rw [hplan]
      constructor
      · intro _
        refine ⟨?_, ?_, ?_⟩
        · have hperm : out.Perm (List.range tasks.length) :=
            perm_range_of_nodup_lt out tasks.length hnd hlt hlen
          have := hperm.map (fun k => (tasks.getD k default).id)
          rw [map_getD_range tasks default (fun t => t.id)] at this
          exact this
        · refine List.Nodup.map_on ?_ hnd
          intro x hx y hy hxy
          exact id_inj_of_nodup tasks hids x y (hlt x hx) (hlt y hy) hxy
        · simp [hlen]
      · intro h
        simp at h

/-- Witness for C3 on the demo tasks under the keyword analysis. -/
theorem C3_witness :
    (generate_plan (analyze_dependencies false .raised) demoTasks).execution_order.Perm
      ["task_0", "task_1", "task_2"] := by
  have h := (C3_generate_plan_invariants (analyze_dependencies false .raised)
    demoTasks (by decide)).1 (by decide)
  have hmap : demoTasks.map (fun t => t.id) = ["task_0", "task_1", "task_2"] := by decide
  exact hmap ▸ h.1

/-- C9: the relation produced on any fallback path (AI disabled, classifier
raising, or unparsable response) is acyclic, so `generate_plan` over the
fallback is valid for every task list; only a classifier-parsed relation can
make it invalid. -/
theorem C9_fallback_plan_always_valid (tasks : List Task) (use_ai : Bool)
    (outcome : ClassifierOutcome)
    (hfb : use_ai = false ∨ outcome = .raised ∨ outcome = .unparsable) :
    (generate_plan (analyze_dependencies use_ai outcome) tasks).is_valid = true := by
  by_cases hne : tasks = []
  · subst hne
    rfl
  · have hrel : analyze_dependencies use_ai outcome tasks = (fun _ => ∅) ∨
        analyze_dependencies use_ai outcome tasks = analyze_with_keywords tasks := by
      by_cases h1 : tasks.length ≤ 1
      · left
        simp [analyze_dependencies, h1]
      · right
        rcases hfb with rfl | rfl | rfl
        · simp [analyze_dependencies, h1]
        · simp [analyze_dependencies, h1, analyze_with_ai]
        · simp [analyze_dependencies, h1, analyze_with_ai]
    have hwf : WellFormed (analyze_dependencies use_ai outcome tasks) tasks.length := by
      rcases hrel with h | h <;> rw [h] <;> intro i hi j hj
      · simp at hj
      · simp only [analyze_with_keywords] at hj
        rw [if_pos hi] at hj
        exact Finset.mem_range.1 (Finset.mem_filter.1 hj).1
    have hacyc : Acyclic (analyze_dependencies use_ai outcome tasks) tasks.length := by
      rcases hrel with h | h <;> rw [h]
      · exact ⟨fun k => k, by intro i _ j hj; simp at hj⟩
      · refine ⟨fun k => taskPhase (tasks.getD k default), ?_⟩
        intro i hi j hj
        simp only [analyze_with_keywords] at hj
        rw [if_pos hi] at hj
        exact (Finset.mem_filter.1 hj).2.2
    obtain ⟨out, hsort⟩ :=
      topological_sort_complete (analyze_dependencies use_ai outcome tasks)
        tasks.length hwf hacyc
    rw [generate_plan_some (analyze_dependencies use_ai outcome) tasks out hne hsort]

/-- Witness for C9: keyword fallback on the demo tasks yields a valid
plan. -/
theorem C9_witness :
    (generate_plan (analyze_dependencies true .raised)
      [{ id := "task_0", name := "Research topic" },
       { id := "task_1", name := "Write report" },
       { id := "task_2", name := "Submit report" }]).is_valid = true :=
  C9_fallback_plan_always_valid
    [{ id := "task_0", name := "Research topic" },
     { id := "task_1", name := "Write report" },
     { id := "task_2", name := "Submit report" }] true .raised (Or.inr (Or.inl rfl))

theorem condFold_eq_minAux (text : List Char) :
    ∀ (l : List (String × Nat)) (acc : Option Nat),
      l.foldl (fun acc ap =>
          if occursIn ap.1 text then
            match acc with
            | none => some ap.2
            | some m => some (min m ap.2)
          else acc) acc
        = minAux acc ((l.filter (fun ap => occursIn ap.1 text)).map (fun ap => ap.2)) := by
  intro l
  induction l with
  | nil =>
    intro acc
    rfl
  | cons ap l ih =>
    intro acc
    by_cases h : occursIn ap.1 text
    · rw [List.foldl_cons, if_pos h, List.filter_cons, if_pos h, List.map_cons, ih]
      rfl
    · rw [List.foldl_cons, if_neg h, List.filter_cons,
        if_neg (by simpa using h), ih]

theorem taskPhase_eq_minAux (t : Task) :
    taskPhase t = (match minAux none (matchingPhases t) with
      | some m => m
      | none => 5) := by
  unfold taskPhase matchingPhases
  simp only [condFold_eq_minAux (taskText t) action_phases none]

theorem minAux_some (ps : List Nat) : ∀ m : Nat,
    minAux (some m) ps = some (ps.foldl min m) := by
  induction ps with
  | nil =>
    intro m
    rfl
  | cons p ps ih =>
    intro m
    show minAux (some (min m p)) ps = _
    rw [ih (min m p)]
    rfl

theorem foldl_min_le (ps : List Nat) : ∀ m : Nat,
    ps.foldl min m ≤ m ∧ ∀ x ∈ ps, ps.foldl min m ≤ x := by
  induction ps with
  | nil =>
    intro m
    exact ⟨Nat.le_refl m, by simp⟩
  | cons p ps ih =>
    intro m
    obtain ⟨h1, h2⟩ := ih (min m p)
    refine ⟨le_trans h1 (min_le_left m p), ?_⟩
    intro x hx
    rcases List.mem_cons.1 hx with rfl | hx'
    · exact le_trans h1 (min_le_right m x)
    · exact h2 x hx'

theorem foldl_min_mem (ps : List Nat) : ∀ m : Nat,
    ps.foldl min m = m ∨ ps.foldl min m ∈ ps := by
  induction ps with
  | nil =>
    intro m
    exact Or.inl rfl
  | cons p ps ih =>
    intro m
    rw [List.foldl_cons]
    rcases ih (min m p) with h | h
    · rw [h]
      rcases min_choice m p with h' | h'
      · exact Or.inl h'
      · rw [h']
        exact Or.inr (List.mem_cons_self p ps)
    · exact Or.inr (List.mem_cons_of_mem p h)

/-- Characterization of the phase: the minimum matching phase, or 5 when no
keyword matches. -/
theorem taskPhase_spec (t : Task) :
    (matchingPhases t = [] → taskPhase t = 5) ∧
    (∀ p ∈ matchingPhases t, taskPhase t ≤ p) ∧
    (matchingPhases t ≠ [] → taskPhase t ∈ matchingPhases t) := by
  have he := taskPhase_eq_minAux t
  cases hm : matchingPhases t with
  | nil =>
    rw [hm] at he
    refine ⟨fun _ => he, ?_, ?_⟩
    · intro p hp
      exact absurd hp (List.not_mem_nil p)
    · intro hc
      exact absurd rfl hc
  | cons p ps =>
    rw [hm] at he
    have hsome : minAux none (p :: ps) = some (ps.foldl min p) := by
      show minAux (some p) ps = _
      exact minAux_some ps p
    rw [hsome] at he
    obtain ⟨h1, h2⟩ := foldl_min_le ps p
    refine ⟨?_, ?_, ?_⟩
    · intro hc
      exact absurd hc (List.cons_ne_nil p ps)
    · intro q hq
      rcases List.mem_cons.1 hq with rfl | hq'
      · exact he ▸ h1
      · exact he ▸ h2 q hq'
    · intro _
      rw [he]
      rcases foldl_min_mem ps p with h | h
      · rw [h]
        exact List.mem_cons_self p ps
      · exact List.mem_cons_of_mem p h

/-- C4: the keyword fallback assigns each task the minimum phase of its
matching keywords (5 when none matches) and produces an edge `j ∈
dependencies[i]` exactly when `j ≠ i` and `phase(j) < phase(i)`; equal
phases never produce a dependency; and on the demo list the phases are
`[2, 4, 7]`, the relation is `{0: {}, 1: {0}, 2: {0, 1}}` and the plan order
is `[Research topic, Write report, Submit report]`. -/
theorem C4_keyword_fallback_spec :
    (∀ tasks : List Task, ∀ i j, i < tasks.length →
      (j ∈ analyze_with_keywords tasks i ↔
        j < tasks.length ∧ j ≠ i ∧
        taskPhase (tasks.getD j default) < taskPhase (tasks.getD i default))) ∧
    (∀ t : Task, matchingPhases t = [] → taskPhase t = 5) ∧
    (∀ t : Task, ∀ p ∈ matchingPhases t, taskPhase t ≤ p) ∧
    (∀ t : Task, matchingPhases t ≠ [] → taskPhase t ∈ matchingPhases t) ∧
    (∀ tasks : List Task, ∀ i j, i < tasks.length → j < tasks.length →
      taskPhase (tasks.getD i default) = taskPhase (tasks.getD j default) →
      j ∉ analyze_with_keywords tasks i ∧ i ∉ analyze_with_keywords tasks j) ∧
    (taskPhase (demoTasks.getD 0 default) = 2 ∧
     taskPhase (demoTasks.getD 1 default) = 4 ∧
     taskPhase (demoTasks.getD 2 default) = 7 ∧
     analyze_with_keywords demoTasks 0 = ∅ ∧
     analyze_with_keywords demoTasks 1 = {0} ∧
     analyze_with_keywords demoTasks 2 = {0, 1} ∧
     (generate_plan (analyze_dependencies false .raised) demoTasks).execution_order
       = ["task_0", "task_1", "task_2"]) := by
  have hmem : ∀ tasks : List Task, ∀ i j, i < tasks.length →
      (j ∈ analyze_with_keywords tasks i ↔
        j < tasks.length ∧ j ≠ i ∧
        taskPhase (tasks.getD j default) < taskPhase (tasks.getD i default)) := by
    intro tasks i j hi
    simp only [analyze_with_keywords, if_pos hi, Finset.mem_filter, Finset.mem_range]
  refine ⟨hmem, fun t => (taskPhase_spec t).1, fun t => (taskPhase_spec t).2.1,
    fun t => (taskPhase_spec t).2.2, ?_, by decide⟩
  intro tasks i j hi hj heq
  constructor
  · intro hmem'
    have := ((hmem tasks i j hi).1 hmem').2.2
    omega
  · intro hmem'
    have := ((hmem tasks j i hj).1 hmem').2.2
    omega

/-- Witness for C4: the dependency of "Submit report" on "Write report" in
the demo list matches the phase characterization. -/
theorem C4_witness :
    1 ∈ analyze_with_keywords demoTasks 2 ↔
      1 < demoTasks.length ∧ 1 ≠ 2 ∧
      taskPhase (demoTasks.getD 1 default) < taskPhase (demoTasks.getD 2 default) :=
  C4_keyword_fallback_spec.1 demoTasks 2 1 (by decide)

/-- C5: with at least two tasks, a raising classifier or an unparsable
response makes `analyze_dependencies` return exactly the keyword-fallback
relation; the function is total, so no exception reaches the caller. -/
theorem C5_classifier_failure_falls_back (tasks : List Task)
    (h2 : 2 ≤ tasks.length) (outcome : ClassifierOutcome)
    (hf : outcome = .raised ∨ outcome = .unparsable) :
    analyze_dependencies true outcome tasks = analyze_with_keywords tasks := by
  have h1 : ¬(tasks.length ≤ 1) := by omega
  rcases hf with rfl | rfl <;> simp [analyze_dependencies, analyze_with_ai, h1]

/-- Witness for C5 on the demo tasks with a raising classifier. -/
theorem C5_witness :
    analyze_dependencies true .raised demoTasks = analyze_with_keywords demoTasks :=
  C5_classifier_failure_falls_back demoTasks (by decide) .raised (Or.inl rfl)

/-- C8: for a parsed classifier response, each task `i < n` reads its
1-based key `str(i+1)`: a missing key gives the empty prerequisite set, and
a present list contributes exactly the 0-based shifts `k = x - 1` of its
in-range entries `1 ≤ x ≤ n`, all others being silently dropped. -/
theorem C8_ai_index_conversion (deps : List (String × List Int)) (n i : Nat)
    (hi : i < n) :
    (deps.lookup (toString (i + 1)) = none → convertAiDeps deps n i = ∅) ∧
    (∀ l, deps.lookup (toString (i + 1)) = some l →
      ∀ k : Nat, k ∈ convertAiDeps deps n i ↔
        ((k : Int) + 1 ∈ l ∧ k + 1 ≤ n)) := by
  constructor
  · intro h
    simp [convertAiDeps, hi, h]
  · intro l hl k
    simp only [convertAiDeps, if_pos hi, hl, List.mem_toFinset, List.mem_map,
      List.mem_filter, decide_eq_true_eq]
    constructor
    · rintro ⟨x, ⟨hxl, hx1, hxn⟩, hxk⟩
      have hx : x = (k : Int) + 1 := by omega
      refine ⟨hx ▸ hxl, by omega⟩
    · rintro ⟨hkl, hkn⟩
      exact ⟨(k : Int) + 1, ⟨hkl, by omega, by omega⟩, by omega⟩

/-- Witness for C8 on the payload `{"1": [], "2": [1, 5, 0, -3]}` with two
tasks: index 1 is kept as 0, while 5, 0 and -3 are dropped. -/
theorem C8_witness :
    0 ∈ convertAiDeps [("1", []), ("2", [1, 5, 0, -3])] 2 1 ↔
      ((0 : Int) + 1 ∈ ([1, 5, 0, -3] : List Int) ∧ 0 + 1 ≤ 2) :=
  (C8_ai_index_conversion [("1", []), ("2", [1, 5, 0, -3])] 2 1 (by decide)).2
    [1, 5, 0, -3] (by decide) 0

/-- C6: `stop_execution` sets the flag, reverts every Running task to
Pending and leaves every non-Running task untouched, so no task is Running
afterwards; from any stopped state with no Running task, no later executor
step changes any task status (the post-sleep check never marks Completed,
new tasks are not begun); and the 3-task run stopped while the second task
is Running ends with statuses `[Completed, Pending, Pending]`. -/
theorem C6_stop_semantics :
    (∀ s : ExecState,
      (stepEvent s .stopExec).stop_flag = true ∧
      (stepEvent s .stopExec).tasks.length = s.tasks.length ∧
      (∀ t ∈ (stepEvent s .stopExec).tasks, t.status ≠ .running) ∧
      (∀ i < s.tasks.length,
        ((s.tasks.getD i default).status = .running →
          ((stepEvent s .stopExec).tasks.getD i default).status = .pending) ∧
        ((s.tasks.getD i default).status ≠ .running →
          (stepEvent s .stopExec).tasks.getD i default = s.tasks.getD i default))) ∧
    (∀ (s : ExecState) (es : List ExecEvent), s.stop_flag = true →
      (∀ t ∈ s.tasks, t.status ≠ .running) →
      (runEvents s es).tasks = s.tasks ∧ (runEvents s es).stop_flag = true) ∧
    ((runEvents { tasks := demoRun, stop_flag := false, pause_flag := false }
        [.taskBegin 0, .taskFinish 0, .taskBegin 1, .stopExec, .taskFinish 1,
         .taskBegin 2, .taskFinish 2]).tasks.map (fun t => t.status)
      = [.completed, .pending, .pending]) := by
  refine ⟨?_, ?_, by decide⟩
  · intro s
    refine ⟨rfl, by simp [stepEvent], ?_, ?_⟩
    · intro t ht
      simp only [stepEvent, List.mem_map] at ht
      obtain ⟨u, _, hu⟩ := ht
      by_cases hst : u.status = .running
      · rw [← hu, if_pos hst]
        simp
      · rw [← hu, if_neg hst]
        exact hst
    · intro i hi
      have hgd : (stepEvent s .stopExec).tasks.getD i default
          = (if (s.tasks.getD i default).status = .running
              then { s.tasks.getD i default with status := .pending }
              else s.tasks.getD i default) := by
        have hi' : i < (stepEvent s .stopExec).tasks.length := by
          simp [stepEvent, hi]
        rw [getD_lt default hi', getD_lt default hi]
        simp [stepEvent]
      constructor
      · intro hrun
        rw [hgd, if_pos hrun]
      · intro hnrun
        rw [hgd, if_neg hnrun]
  · intro s es hstop hnr
    induction es generalizing s with
    | nil => exact ⟨rfl, hstop⟩
    | cons e es ih =>
      have hstep : (stepEvent s e).tasks = s.tasks ∧
          (stepEvent s e).stop_flag = true := by
        cases e with
        | taskBegin i => simp [stepEvent, hstop]
        | taskFinish i => simp [stepEvent, hstop]
        | stopExec =>
          refine ⟨?_, rfl⟩
          simp only [stepEvent]
          have : s.tasks.map (fun t =>
              if t.status = .running then { t with status := .pending } else t)
              = s.tasks.map (fun t => t) := by
            apply List.map_congr_left
            intro t ht
            rw [if_neg (hnr t ht)]
          rw [this, List.map_id']
        | pauseExec => exact ⟨rfl, hstop⟩
        | resumeExec => exact ⟨rfl, hstop⟩
      have hrun : runEvents s (e :: es) = runEvents (stepEvent s e) es := rfl
      rw [hrun]
      have := ih (stepEvent s e) hstep.2 (by rw [hstep.1]; exact hnr)
      exact ⟨by rw [this.1, hstep.1], this.2⟩

/-- Witness for C6: stopping the demo state leaves nothing Running, and a
stopped state with statuses `[Completed, Pending, Pending]` is frozen by
further begin/finish steps. -/
theorem C6_witness :
    (∀ t ∈ (stepEvent { tasks := demoRun, stop_flag := false, pause_flag := false }
        .stopExec).tasks, t.status ≠ .running) ∧
    (runEvents { tasks := demoStopped, stop_flag := true, pause_flag := false }
        [.taskBegin 1, .taskFinish 1, .taskBegin 2]).tasks = demoStopped :=
  ⟨(C6_stop_semantics.1 { tasks := demoRun, stop_flag := false, pause_flag := false }).2.2.1,
   (C6_stop_semantics.2.1 { tasks := demoStopped, stop_flag := true, pause_flag := false }
     [.taskBegin 1, .taskFinish 1, .taskBegin 2] rfl (by decide)).1⟩

/-- C7: `pause_execution` only sets the pause flag and leaves every task
status (including the in-flight one) unchanged — that half of the claim
holds.  But `execute_task` never consults `pause_flag`: with the pause flag
set and the stop flag clear, a begin step still moves the Pending task 0 of
the demo list to Running, so the executor does begin new work while paused,
refuting the claim's first half on the code. -/
theorem C7_pause_not_observed :
    (∀ s : ExecState, (stepEvent s .pauseExec).tasks = s.tasks ∧
      (stepEvent s .pauseExec).pause_flag = true ∧
      (stepEvent s .pauseExec).stop_flag = s.stop_flag) ∧
    ((stepEvent { tasks := demoRun, stop_flag := false, pause_flag := true }
        (.taskBegin 0)).tasks.map (fun t => t.status)
      = [.running, .pending, .pending]) := by
  exact ⟨fun s => ⟨rfl, rfl, rfl⟩, by decide⟩

/-- C10: plan computation is side-effect-free on its inputs: the
state-passing embedding returns the task store unchanged (every field of
every input task, `id`, `name`, `description`, `dependencies`, `priority`,
`status`, `created_at`, is preserved), it computes the same plan as
`generate_plan`, and every task snapshot stored in the plan is an element of
the input list keyed by its own id. -/
theorem C10_generate_plan_no_side_effects (use_ai : Bool)
    (outcome : ClassifierOutcome) (tasks : List Task) :
    (generate_plan_mut use_ai outcome tasks).2 = tasks ∧
    (analyze_dependencies_mut use_ai outcome tasks).2 = tasks ∧
    (generate_plan_mut use_ai outcome tasks).1
      = generate_plan (analyze_dependencies use_ai outcome) tasks ∧
    (∀ i < tasks.length,
      (generate_plan_mut use_ai outcome tasks).2.getD i default
        = tasks.getD i default) ∧
    (∀ pr ∈ (generate_plan (analyze_dependencies use_ai outcome) tasks).tasks,
      pr.2 ∈ tasks ∧ pr.1 = pr.2.id) := by
  have hstore : (generate_plan_mut use_ai outcome tasks).2 = tasks := by
    simp only [generate_plan_mut, analyze_dependencies_mut]
    split
    · rfl
    · split <;> rfl
  have hsame : (generate_plan_mut use_ai outcome tasks).1
      = generate_plan (analyze_dependencies use_ai outcome) tasks := by
    simp only [generate_plan_mut, analyze_dependencies_mut, generate_plan]
    split
    · rfl
    · split <;> rfl
  refine ⟨hstore, rfl, hsame, fun i _ => by rw [hstore], ?_⟩
  intro pr hpr
  by_cases hne : tasks = []
  · subst hne
    simp [generate_plan] at hpr
  · cases hsort : topological_sort (analyze_dependencies use_ai outcome tasks)
        tasks.length with
    | none =>
      rw [generate_plan_none (analyze_dependencies use_ai outcome) tasks hne hsort] at hpr
      simp at hpr
    | some out =>
      rw [generate_plan_some (analyze_dependencies use_ai outcome) tasks out hne hsort] at hpr
      simp only [List.mem_map] at hpr
      obtain ⟨k, hk, hkpr⟩ := hpr
      obtain ⟨_, hlt, _, _, _⟩ := topological_sort_spec
        (analyze_dependencies use_ai outcome tasks) tasks.length out hsort
      refine ⟨?_, ?_⟩
      · rw [← hkpr]
        exact getD_mem default (hlt k hk)
      · rw [← hkpr]

/-- Witness for C10: the demo store is returned unchanged at index 0. -/
theorem C10_witness :
    (generate_plan_mut false .raised demoTasks).2.getD 0 default
      = demoTasks.getD 0 default :=
  (C10_generate_plan_no_side_effects false .raised demoTasks).2.2.2.1 0 (by decide)

end Scheduler
